import Mathlib

/-!
Verification of the Base64 codec in `include/base64.hpp` (namespace `base64`).

Modelling conventions (shallow embedding):
* A byte is a `Nat` below 256; a character of a string is its `uint8_t`
  value, also a `Nat` (the source casts every `char` through
  `static_cast<uint8_t>` before use).
* `std::string` / `std::string_view` / `std::span<const std::byte>`
  become `List Nat` of the corresponding byte values.
* `std::expected<T, std::error_code>` becomes `Except error T`; the
  source always builds the `std::error_code` from the `base64::error`
  enum, so the enum itself is the error type of the model.
* The imperative loops of `base64_encode`, `base64_decode` and the
  decode-table initialisation become structurally recursive functions
  that process the same group sizes (3 input bytes per iteration for
  encode, 4 symbols per iteration for decode, one table store per
  iteration for the table loop).
-/

set_option maxHeartbeats 1600000

namespace base64

/-- The `base64::error` enum of the source (file errors included, though
the pure codec never returns them). -/
inductive error : Type where
  | success : error
  | empty_data : error
  | invalid_length : error
  | invalid_character : error
  | invalid_character_set_length : error
  | invalid_character_set_padding_char_used : error
  | file_not_found : error
  | file_not_readable : error
  | file_too_large : error
  | io_error : error
deriving DecidableEq, Repr

deriving instance DecidableEq for Except

/-- ASCII code of the padding character '=' (the source writes the
literal character). -/
def padByte : Nat := 61

/-- `base64_chars`: the standard alphabet string, as byte values. -/
def base64_chars : List Nat :=
  (String.toList
    "ABCDEFGHIJKLMNOPQRSTUVWXYZabcdefghijklmnopqrstuvwxyz0123456789+/").map
    Char.toNat

/-- `base64_chars_url_safe`: the URL-safe alphabet string, as byte
values. -/
def base64_chars_url_safe : List Nat :=
  (String.toList
    "ABCDEFGHIJKLMNOPQRSTUVWXYZabcdefghijklmnopqrstuvwxyz0123456789-_").map
    Char.toNat

namespace detail

/-- `detail::validate_charset`: `chars.size() == 64 &&
chars.find('=') == npos`. -/
def validate_charset (chars : List Nat) : Bool :=
  chars.length == 64 && !(chars.contains padByte)

end detail

/-- The encoding loop of `base64_encode` (and, textually identical in
the source, of `detail::stream_encoder::process_chunk`): for each group
of up to 3 input bytes build the 24-bit `chunk` (missing trailing bytes
contribute nothing, i.e. are zero), then emit 4 symbols, the 3rd and 4th
replaced by '=' when the corresponding input byte is absent.
`chars.getD i 0` models `chars[i]` (the index is always below 64 and the
validated charset has length 64, so the default is never read). -/
def encodeChunks (chars : List Nat) : List Nat → List Nat
  | [] => []
  | [b0] =>
      let chunk := b0 <<< 16
      [chars.getD ((chunk &&& 0xFC0000) >>> 18) 0,
       chars.getD ((chunk &&& 0x3F000) >>> 12) 0,
       padByte, padByte]
  | [b0, b1] =>
      let chunk := b0 <<< 16 ||| b1 <<< 8
      [chars.getD ((chunk &&& 0xFC0000) >>> 18) 0,
       chars.getD ((chunk &&& 0x3F000) >>> 12) 0,
       chars.getD ((chunk &&& 0xFC0) >>> 6) 0,
       padByte]
  | b0 :: b1 :: b2 :: rest =>
      let chunk := b0 <<< 16 ||| b1 <<< 8 ||| b2
      [chars.getD ((chunk &&& 0xFC0000) >>> 18) 0,
       chars.getD ((chunk &&& 0x3F000) >>> 12) 0,
       chars.getD ((chunk &&& 0xFC0) >>> 6) 0,
       chars.getD (chunk &&& 0x3F) 0] ++ encodeChunks chars rest

/-- `base64_encode`: empty check, then charset check (whose error
expression re-tests `input.empty()` exactly as the source does), then
the encoding loop, which cannot fail. -/
def base64_encode (input : List Nat)
    (chars : List Nat := base64_chars) : Except error (List Nat) :=
  if input = [] then .error .empty_data
  else if !(detail.validate_charset chars) then
    .error (if input = [] then .empty_data
            else if chars.length ≠ 64 then .invalid_character_set_length
            else .invalid_character_set_padding_char_used)
  else .ok (encodeChunks chars input)

/-- State of the decode lookup table after the first `n` iterations of
`for (uint8_t i = 0; i < 64; ++i) decode_table[chars[i]] = i;` starting
from a table filled with `0xFF`.  Represented as a function from byte
value to stored entry; a later iteration overwrites an earlier one, so
the entry for `c` is the largest `i < n` with `chars[i] = c`, else
`0xFF`. -/
def table_write (chars : List Nat) : Nat → Nat → Nat
  | 0, _ => 0xFF
  | n + 1, c => if c = chars.getD n 0 then n else table_write chars n c

/-- The finished decode table of `base64_decode`: the 64-iteration loop
followed by `decode_table['='] = 0` ('=' is never in a validated
charset, so the final store is the outermost test). -/
def decode_table (chars : List Nat) (c : Nat) : Nat :=
  if c = padByte then 0 else table_write chars 64 c

/-- The decoding loop of `base64_decode`: groups of exactly 4 symbols.
A group fails with `invalid_character` when symbol 1 or 2 maps to
`0xFF`, or symbol 3 or 4 is not '=' and maps to `0xFF`.  Otherwise the
24-bit chunk is rebuilt and 1 to 3 bytes are appended, byte 2 only when
symbol 3 is not '=', byte 3 only when symbol 4 is not '='.  The
catch-all is only reached on `[]`: every caller has checked
`input.size() % 4 == 0`. -/
def decodeChunks (table : Nat → Nat) : List Nat → Except error (List Nat)
  | c0 :: c1 :: c2 :: c3 :: rest =>
      let v0 := table c0
      let v1 := table c1
      let v2 := table c2
      let v3 := table c3
      if v0 = 0xFF ∨ v1 = 0xFF ∨ (c2 ≠ padByte ∧ v2 = 0xFF) ∨
          (c3 ≠ padByte ∧ v3 = 0xFF) then
        .error .invalid_character
      else
        let chunk := v0 <<< 18 ||| v1 <<< 12 ||| v2 <<< 6 ||| v3
        let bytes := [(chunk >>> 16) &&& 0xFF] ++
          (if c2 ≠ padByte then [(chunk >>> 8) &&& 0xFF] else []) ++
          (if c3 ≠ padByte then [chunk &&& 0xFF] else [])
        (decodeChunks table rest).map (fun tl => bytes ++ tl)
  | _ => .ok []

/-- `base64_decode`: empty check, charset check, length check, then the
decoding loop over the table built from `chars`. -/
def base64_decode (input : List Nat)
    (chars : List Nat := base64_chars) : Except error (List Nat) :=
  if input = [] then .error .empty_data
  else if !(detail.validate_charset chars) then
    .error (if chars.length ≠ 64 then .invalid_character_set_length
            else .invalid_character_set_padding_char_used)
  else if input.length % 4 ≠ 0 then .error .invalid_length
  else decodeChunks (decode_table chars) input

namespace detail

/-- The loop body of `detail::stream_encoder::process_chunk`, which is
character-for-character the loop of `base64_encode`; kept as its own
definition so the equivalence with `encodeChunks` is proved, not
assumed. -/
def process_chunk_loop (chars : List Nat) : List Nat → List Nat
  | [] => []
  | [b0] =>
      let triple := b0 <<< 16
      [chars.getD ((triple &&& 0xFC0000) >>> 18) 0,
       chars.getD ((triple &&& 0x3F000) >>> 12) 0,
       padByte, padByte]
  | [b0, b1] =>
      let triple := b0 <<< 16 ||| b1 <<< 8
      [chars.getD ((triple &&& 0xFC0000) >>> 18) 0,
       chars.getD ((triple &&& 0x3F000) >>> 12) 0,
       chars.getD ((triple &&& 0xFC0) >>> 6) 0,
       padByte]
  | b0 :: b1 :: b2 :: rest =>
      let triple := b0 <<< 16 ||| b1 <<< 8 ||| b2
      [chars.getD ((triple &&& 0xFC0000) >>> 18) 0,
       chars.getD ((triple &&& 0x3F000) >>> 12) 0,
       chars.getD ((triple &&& 0xFC0) >>> 6) 0,
       chars.getD (triple &&& 0x3F) 0] ++ process_chunk_loop chars rest

/-- `detail::stream_encoder`: of its four fields only the accumulated
output `result_` and the alphabet `chars_` affect the produced text;
`buffer_` and `chunk_size_` only serve the file I/O collaborator and
carry no codec state. -/
structure stream_encoder where
  result_ : List Nat
  chars_ : List Nat

/-- The constructor: empty accumulated output (`reserved_size` only
pre-allocates). -/
def stream_encoder.new (chars : List Nat := base64_chars) : stream_encoder :=
  ⟨[], chars⟩

/-- `stream_encoder::process_chunk`: run the encode loop on the chunk
and append to `result_`. -/
def stream_encoder.process_chunk (e : stream_encoder)
    (chunk : List Nat) : stream_encoder :=
  { e with result_ := e.result_ ++ process_chunk_loop e.chars_ chunk }

/-- `stream_encoder::finalize`: return the accumulated text. -/
def stream_encoder.finalize (e : stream_encoder) : List Nat :=
  e.result_

/-- Feeding a list of chunks in order. -/
def stream_encoder.feed (e : stream_encoder)
    (chunks : List (List Nat)) : stream_encoder :=
  chunks.foldl stream_encoder.process_chunk e

end detail

/-- Number of trailing '=' symbols of an encoded text. -/
def trailing_pad_count (s : List Nat) : Nat :=
  (s.reverse.takeWhile (fun c => c == padByte)).length

/-- Number of '=' symbols standing in the 3rd or 4th position of any
4-symbol group of a decode input. -/
def group_pad_count : List Nat → Nat
  | _ :: _ :: c2 :: c3 :: rest =>
      (if c2 = padByte then 1 else 0) + (if c3 = padByte then 1 else 0) +
        group_pad_count rest
  | _ => 0

/-- An alphabet made of 64 copies of 'A': it passes
`detail::validate_charset` although its characters are not distinct. -/
def dup_alphabet : List Nat := List.replicate 64 65

/-! ### Arithmetic readings of the bit operations used by the codec -/

theorem and_shl_shr (x m k : Nat) : (x &&& m <<< k) >>> k = x >>> k &&& m := by
  apply Nat.eq_of_testBit_eq
  intro j
  simp [Nat.testBit_shiftRight, Nat.testBit_and, Nat.testBit_shiftLeft,
    Nat.le_add_right, Nat.add_sub_cancel_left]

theorem or_eq_add_of_lt (a b k : Nat) (ha : 2 ^ k ∣ a) (hb : b < 2 ^ k) :
    a ||| b = a + b := by
  obtain ⟨c, rfl⟩ := ha
  exact (Nat.mul_add_lt_is_or hb c).symm

theorem mask18 (x : Nat) : (x &&& 0xFC0000) >>> 18 = x / 262144 % 64 := by
  have h : (0xFC0000 : Nat) = 63 <<< 18 := by decide
  have h2 : (63 : Nat) = 2 ^ 6 - 1 := by decide
  rw [h, and_shl_shr, Nat.shiftRight_eq_div_pow, h2,
    Nat.and_pow_two_sub_one_eq_mod]

theorem mask12 (x : Nat) : (x &&& 0x3F000) >>> 12 = x / 4096 % 64 := by
  have h : (0x3F000 : Nat) = 63 <<< 12 := by decide
  have h2 : (63 : Nat) = 2 ^ 6 - 1 := by decide
  rw [h, and_shl_shr, Nat.shiftRight_eq_div_pow, h2,
    Nat.and_pow_two_sub_one_eq_mod]

theorem mask6 (x : Nat) : (x &&& 0xFC0) >>> 6 = x / 64 % 64 := by
  have h : (0xFC0 : Nat) = 63 <<< 6 := by decide
  have h2 : (63 : Nat) = 2 ^ 6 - 1 := by decide
  rw [h, and_shl_shr, Nat.shiftRight_eq_div_pow, h2,
    Nat.and_pow_two_sub_one_eq_mod]

theorem mask0 (x : Nat) : x &&& 0x3F = x % 64 := by
  have h2 : (0x3F : Nat) = 2 ^ 6 - 1 := by decide
  rw [h2, Nat.and_pow_two_sub_one_eq_mod]

theorem byte_extract16 (x : Nat) : (x >>> 16) &&& 0xFF = x / 65536 % 256 := by
  have h2 : (0xFF : Nat) = 2 ^ 8 - 1 := by decide
  rw [Nat.shiftRight_eq_div_pow, h2, Nat.and_pow_two_sub_one_eq_mod]

theorem byte_extract8 (x : Nat) : (x >>> 8) &&& 0xFF = x / 256 % 256 := by
  have h2 : (0xFF : Nat) = 2 ^ 8 - 1 := by decide
  rw [Nat.shiftRight_eq_div_pow, h2, Nat.and_pow_two_sub_one_eq_mod]

theorem byte_extract0 (x : Nat) : x &&& 0xFF = x % 256 := by
  have h2 : (0xFF : Nat) = 2 ^ 8 - 1 := by decide
  rw [h2, Nat.and_pow_two_sub_one_eq_mod]

theorem chunk1_eq (b0 : Nat) : b0 <<< 16 = b0 * 65536 := by
  rw [Nat.shiftLeft_eq]

theorem chunk2_eq (b0 b1 : Nat) (h1 : b1 < 256) :
    b0 <<< 16 ||| b1 <<< 8 = b0 * 65536 + b1 * 256 := by
  have s0 : b0 <<< 16 = b0 * 65536 := by rw [Nat.shiftLeft_eq]
  have s1 : b1 <<< 8 = b1 * 256 := by rw [Nat.shiftLeft_eq]
  rw [s0, s1,
    or_eq_add_of_lt (b0 * 65536) (b1 * 256) 16 ⟨b0, by ring⟩ (by omega)]

theorem chunk3_eq (b0 b1 b2 : Nat) (h1 : b1 < 256) (h2 : b2 < 256) :
    b0 <<< 16 ||| b1 <<< 8 ||| b2 = b0 * 65536 + b1 * 256 + b2 := by
  rw [chunk2_eq b0 b1 h1,
    or_eq_add_of_lt (b0 * 65536 + b1 * 256) b2 8 ⟨b0 * 256 + b1, by ring⟩
      (by omega)]

theorem dchunk_eq (v0 v1 v2 v3 : Nat) (h1 : v1 < 64) (h2 : v2 < 64)
    (h3 : v3 < 64) :
    v0 <<< 18 ||| v1 <<< 12 ||| v2 <<< 6 ||| v3 =
      v0 * 262144 + v1 * 4096 + v2 * 64 + v3 := by
  have s0 : v0 <<< 18 = v0 * 262144 := by rw [Nat.shiftLeft_eq]
  have s1 : v1 <<< 12 = v1 * 4096 := by rw [Nat.shiftLeft_eq]
  have s2 : v2 <<< 6 = v2 * 64 := by rw [Nat.shiftLeft_eq]
  rw [s0, s1, s2,
    or_eq_add_of_lt (v0 * 262144) (v1 * 4096) 18 ⟨v0, by ring⟩ (by omega),
    or_eq_add_of_lt (v0 * 262144 + v1 * 4096) (v2 * 64) 12
      ⟨v0 * 64 + v1, by ring⟩ (by omega),
    or_eq_add_of_lt (v0 * 262144 + v1 * 4096 + v2 * 64) v3 6
      ⟨v0 * 4096 + v1 * 64 + v2, by ring⟩ (by omega)]



theorem idx18_lt (x : Nat) : (x &&& 0xFC0000) >>> 18 < 64 := by
  rw [mask18]; omega

theorem idx12_lt (x : Nat) : (x &&& 0x3F000) >>> 12 < 64 := by
  rw [mask12]; omega

theorem idx6_lt (x : Nat) : (x &&& 0xFC0) >>> 6 < 64 := by
  rw [mask6]; omega

theorem idx0_lt (x : Nat) : x &&& 0x3F < 64 := by
  rw [mask0]; omega

theorem encodeChunks_length (chars : List Nat) (l : List Nat) :
    (encodeChunks chars l).length = (l.length + 2) / 3 * 4 := by
  induction l using encodeChunks.induct chars with
  | case1 => rfl
  | case2 b0 => simp [encodeChunks]
  | case3 b0 b1 => simp [encodeChunks]
  | case4 b0 b1 b2 rest ih =>
      simp [encodeChunks, ih]
      omega



theorem getD_mem_of_lt (chars : List Nat) (h64 : chars.length = 64)
    (i : Nat) (hi : i < 64) : chars.getD i 0 ∈ chars := by
  have h : i < chars.length := by omega
  rw [List.getD_eq_getElem?_getD, List.getElem?_eq_getElem h]
  exact List.getElem_mem h

theorem encodeChunks_mem (chars : List Nat) (h64 : chars.length = 64)
    (l : List Nat) :
    ∀ x ∈ encodeChunks chars l, x ∈ chars ∨ x = padByte := by
  induction l using encodeChunks.induct chars with
  | case1 => intro x hx; simp [encodeChunks] at hx
  | case2 b0 =>
      intro x hx
      simp only [encodeChunks, List.mem_cons, List.not_mem_nil, or_false]
        at hx
      rcases hx with h | h | h | h
      · exact .inl (h ▸ getD_mem_of_lt chars h64 _ (idx18_lt _))
      · exact .inl (h ▸ getD_mem_of_lt chars h64 _ (idx12_lt _))
      · exact .inr h
      · exact .inr h
  | case3 b0 b1 =>
      intro x hx
      simp only [encodeChunks, List.mem_cons, List.not_mem_nil, or_false]
        at hx
      rcases hx with h | h | h | h
      · exact .inl (h ▸ getD_mem_of_lt chars h64 _ (idx18_lt _))
      · exact .inl (h ▸ getD_mem_of_lt chars h64 _ (idx12_lt _))
      · exact .inl (h ▸ getD_mem_of_lt chars h64 _ (idx6_lt _))
      · exact .inr h
  | case4 b0 b1 b2 rest ih =>
      intro x hx
      simp only [encodeChunks, List.cons_append, List.nil_append,
        List.mem_cons] at hx
      rcases hx with h | h | h | h | h
      · exact .inl (h ▸ getD_mem_of_lt chars h64 _ (idx18_lt _))
      · exact .inl (h ▸ getD_mem_of_lt chars h64 _ (idx12_lt _))
      · exact .inl (h ▸ getD_mem_of_lt chars h64 _ (idx6_lt _))
      · exact .inl (h ▸ getD_mem_of_lt chars h64 _ (idx0_lt _))
      · exact ih x h

theorem encodeChunks_append (chars : List Nat) (a b : List Nat)
    (ha : a.length % 3 = 0) :
    encodeChunks chars (a ++ b) =
      encodeChunks chars a ++ encodeChunks chars b := by
  induction a using encodeChunks.induct chars with
  | case1 => simp [encodeChunks]
  | case2 b0 => simp at ha
  | case3 b0 b1 => simp at ha
  | case4 b0 b1 b2 rest ih =>
      have hr : rest.length % 3 = 0 := by simp at ha; omega
      simp only [List.cons_append, encodeChunks, List.append_eq,
        List.nil_append, ih hr, List.append_assoc]



theorem getD_eq_getElem (chars : List Nat) (i : Nat) (h : i < chars.length) :
    chars.getD i 0 = chars[i] := by
  rw [List.getD_eq_getElem?_getD, List.getElem?_eq_getElem h]
  rfl

theorem table_write_get (chars : List Nat) (hnd : chars.Nodup) :
    ∀ n, n ≤ chars.length → ∀ i, i < n →
      table_write chars n (chars.getD i 0) = i := by
  intro n
  induction n with
  | zero => intro _ i hi; omega
  | succ m ih =>
      intro hn i hi
      rw [table_write]
      have hi2 : i < chars.length := by omega
      have hm2 : m < chars.length := by omega
      by_cases h : chars.getD i 0 = chars.getD m 0
      · have h2 : chars[i] = chars[m] := by
          rw [← getD_eq_getElem chars i hi2, ← getD_eq_getElem chars m hm2]
          exact h
        have him : i = m := (List.Nodup.getElem_inj_iff hnd).mp h2
        simp [h, him]
      · have hne : i ≠ m := by
          intro he
          rw [he] at h
          exact h rfl
        rw [if_neg h]
        exact ih (by omega) i (by omega)

theorem table_write_not_mem (chars : List Nat) (c : Nat) (hc : c ∉ chars) :
    ∀ n, n ≤ chars.length → table_write chars n c = 0xFF := by
  intro n
  induction n with
  | zero => intro _; rfl
  | succ m ih =>
      intro hn
      rw [table_write]
      have hm : m < chars.length := by omega
      have hmem : chars.getD m 0 ∈ chars := by
        rw [getD_eq_getElem chars m hm]
        exact List.getElem_mem hm
      rw [if_neg (by intro h; rw [h] at hc; exact hc hmem)]
      exact ih (by omega)

theorem decode_table_pad (chars : List Nat) :
    decode_table chars padByte = 0 := by
  simp [decode_table]

theorem decode_table_get (chars : List Nat) (h64 : chars.length = 64)
    (hnd : chars.Nodup) (hpad : padByte ∉ chars) (i : Nat) (hi : i < 64) :
    decode_table chars (chars.getD i 0) = i := by
  rw [decode_table]
  have hmem : chars.getD i 0 ∈ chars := getD_mem_of_lt chars h64 i hi
  rw [if_neg (by intro h; rw [h] at hmem; exact hpad hmem)]
  exact table_write_get chars hnd 64 (by omega) i hi



theorem roundtrip_chunks (chars : List Nat) (h64 : chars.length = 64)
    (hnd : chars.Nodup) (hpad : padByte ∉ chars) :
    ∀ l, (∀ b ∈ l, b < 256) →
      decodeChunks (decode_table chars) (encodeChunks chars l) = .ok l := by
  intro l
  induction l using encodeChunks.induct chars with
  | case1 => intro _; rfl
  | case2 b0 =>
      intro hb
      have hb0 : b0 < 256 := hb b0 (by simp)
      have e0 := decode_table_get chars h64 hnd hpad _ (idx18_lt (b0 <<< 16))
      have e1 := decode_table_get chars h64 hnd hpad _ (idx12_lt (b0 <<< 16))
      have l0 := idx18_lt (b0 <<< 16)
      have l1 := idx12_lt (b0 <<< 16)
      simp only [encodeChunks, decodeChunks, e0, e1, decode_table_pad]
      rw [if_neg (by push_neg; refine ⟨by omega, by omega, ?_, ?_⟩ <;> simp)]
      simp only [ne_eq, not_true_eq_false, if_false, reduceIte]
      have harith :
          (((b0 <<< 16 &&& 0xFC0000) >>> 18) <<< 18 |||
            ((b0 <<< 16 &&& 0x3F000) >>> 12) <<< 12 ||| 0 <<< 6 ||| 0) >>> 16
            &&& 0xFF = b0 := by
        simp only [mask18, mask12, chunk1_eq]
        rw [dchunk_eq _ _ 0 0 (by omega) (by omega) (by omega),
          byte_extract16]
        omega
      simp only [Except.map, List.append_nil, List.nil_append]
      rw [harith]
  | case3 b0 b1 =>
      intro hb
      have hb0 : b0 < 256 := hb b0 (by simp)
      have hb1 : b1 < 256 := hb b1 (by simp)
      have e0 := decode_table_get chars h64 hnd hpad _
        (idx18_lt (b0 <<< 16 ||| b1 <<< 8))
      have e1 := decode_table_get chars h64 hnd hpad _
        (idx12_lt (b0 <<< 16 ||| b1 <<< 8))
      have e2 := decode_table_get chars h64 hnd hpad _
        (idx6_lt (b0 <<< 16 ||| b1 <<< 8))
      have l0 := idx18_lt (b0 <<< 16 ||| b1 <<< 8)
      have l1 := idx12_lt (b0 <<< 16 ||| b1 <<< 8)
      have l2 := idx6_lt (b0 <<< 16 ||| b1 <<< 8)
      have hc2 : chars.getD (((b0 <<< 16 ||| b1 <<< 8) &&& 0xFC0) >>> 6) 0 ≠
          padByte := by
        intro h
        have hm := getD_mem_of_lt chars h64 _
          (idx6_lt (b0 <<< 16 ||| b1 <<< 8))
        rw [h] at hm
        exact hpad hm
      simp only [encodeChunks, decodeChunks, e0, e1, e2, decode_table_pad]
      rw [if_neg (by push_neg; exact ⟨by omega, by omega, fun _ => by omega,
        fun _ => by omega⟩)]
      rw [if_pos hc2]
      simp only [ne_eq, not_true_eq_false, if_false, reduceIte]
      have h1 :
          ((((b0 <<< 16 ||| b1 <<< 8) &&& 0xFC0000) >>> 18) <<< 18 |||
            (((b0 <<< 16 ||| b1 <<< 8) &&& 0x3F000) >>> 12) <<< 12 |||
            (((b0 <<< 16 ||| b1 <<< 8) &&& 0xFC0) >>> 6) <<< 6 ||| 0) >>> 16
            &&& 0xFF = b0 := by
        simp only [mask18, mask12, mask6, chunk2_eq b0 b1 hb1]
        rw [dchunk_eq _ _ _ 0 (by omega) (by omega) (by omega),
          byte_extract16]
        omega
      have h2 :
          ((((b0 <<< 16 ||| b1 <<< 8) &&& 0xFC0000) >>> 18) <<< 18 |||
            (((b0 <<< 16 ||| b1 <<< 8) &&& 0x3F000) >>> 12) <<< 12 |||
            (((b0 <<< 16 ||| b1 <<< 8) &&& 0xFC0) >>> 6) <<< 6 ||| 0) >>> 8
            &&& 0xFF = b1 := by
        simp only [mask18, mask12, mask6, chunk2_eq b0 b1 hb1]
        rw [dchunk_eq _ _ _ 0 (by omega) (by omega) (by omega),
          byte_extract8]
        omega
      simp only [Except.map, List.append_nil, List.nil_append,
        List.singleton_append, List.cons_append]
      rw [h1, h2]
  | case4 b0 b1 b2 rest ih =>
      intro hb
      have hb0 : b0 < 256 := hb b0 (by simp)
      have hb1 : b1 < 256 := hb b1 (by simp)
      have hb2 : b2 < 256 := hb b2 (by simp)
      have hbr : ∀ b ∈ rest, b < 256 := fun b h => hb b (by simp [h])
      have e0 := decode_table_get chars h64 hnd hpad _
        (idx18_lt (b0 <<< 16 ||| b1 <<< 8 ||| b2))
      have e1 := decode_table_get chars h64 hnd hpad _
        (idx12_lt (b0 <<< 16 ||| b1 <<< 8 ||| b2))
      have e2 := decode_table_get chars h64 hnd hpad _
        (idx6_lt (b0 <<< 16 ||| b1 <<< 8 ||| b2))
      have e3 := decode_table_get chars h64 hnd hpad _
        (idx0_lt (b0 <<< 16 ||| b1 <<< 8 ||| b2))
      have l0 := idx18_lt (b0 <<< 16 ||| b1 <<< 8 ||| b2)
      have l1 := idx12_lt (b0 <<< 16 ||| b1 <<< 8 ||| b2)
      have l2 := idx6_lt (b0 <<< 16 ||| b1 <<< 8 ||| b2)
      have l3 := idx0_lt (b0 <<< 16 ||| b1 <<< 8 ||| b2)
      have hc2 : chars.getD
          (((b0 <<< 16 ||| b1 <<< 8 ||| b2) &&& 0xFC0) >>> 6) 0 ≠
          padByte := by
        intro h
        have hm := getD_mem_of_lt chars h64 _
          (idx6_lt (b0 <<< 16 ||| b1 <<< 8 ||| b2))
        rw [h] at hm
        exact hpad hm
      have hc3 : chars.getD
          ((b0 <<< 16 ||| b1 <<< 8 ||| b2) &&& 0x3F) 0 ≠ padByte := by
        intro h
        have hm := getD_mem_of_lt chars h64 _
          (idx0_lt (b0 <<< 16 ||| b1 <<< 8 ||| b2))
        rw [h] at hm
        exact hpad hm
      simp only [encodeChunks, List.cons_append, List.append_eq,
        List.nil_append, decodeChunks, e0, e1, e2, e3]
      rw [if_neg (by push_neg; exact ⟨by omega, by omega, fun _ => by omega,
        fun _ => by omega⟩)]
      rw [if_pos hc2, if_pos hc3, ih hbr]
      have h1 :
          ((((b0 <<< 16 ||| b1 <<< 8 ||| b2) &&& 0xFC0000) >>> 18) <<< 18 |||
            (((b0 <<< 16 ||| b1 <<< 8 ||| b2) &&& 0x3F000) >>> 12) <<< 12 |||
            (((b0 <<< 16 ||| b1 <<< 8 ||| b2) &&& 0xFC0) >>> 6) <<< 6 |||
            ((b0 <<< 16 ||| b1 <<< 8 ||| b2) &&& 0x3F)) >>> 16
            &&& 0xFF = b0 := by
        simp only [mask18, mask12, mask6, mask0, chunk3_eq b0 b1 b2 hb1 hb2]
        rw [dchunk_eq _ _ _ _ (by omega) (by omega) (by omega),
          byte_extract16]
        omega
      have h2 :
          ((((b0 <<< 16 ||| b1 <<< 8 ||| b2) &&& 0xFC0000) >>> 18) <<< 18 |||
            (((b0 <<< 16 ||| b1 <<< 8 ||| b2) &&& 0x3F000) >>> 12) <<< 12 |||
            (((b0 <<< 16 ||| b1 <<< 8 ||| b2) &&& 0xFC0) >>> 6) <<< 6 |||
            ((b0 <<< 16 ||| b1 <<< 8 ||| b2) &&& 0x3F)) >>> 8
            &&& 0xFF = b1 := by
        simp only [mask18, mask12, mask6, mask0, chunk3_eq b0 b1 b2 hb1 hb2]
        rw [dchunk_eq _ _ _ _ (by omega) (by omega) (by omega),
          byte_extract8]
        omega
      have h3 :
          ((((b0 <<< 16 ||| b1 <<< 8 ||| b2) &&& 0xFC0000) >>> 18) <<< 18 |||
            (((b0 <<< 16 ||| b1 <<< 8 ||| b2) &&& 0x3F000) >>> 12) <<< 12 |||
            (((b0 <<< 16 ||| b1 <<< 8 ||| b2) &&& 0xFC0) >>> 6) <<< 6 |||
            ((b0 <<< 16 ||| b1 <<< 8 ||| b2) &&& 0x3F))
            &&& 0xFF = b2 := by
        simp only [mask18, mask12, mask6, mask0, chunk3_eq b0 b1 b2 hb1 hb2]
        rw [dchunk_eq _ _ _ _ (by omega) (by omega) (by omega),
          byte_extract0]
        omega
      simp only [Except.map, List.append_nil, List.nil_append,
        List.singleton_append, List.cons_append]
      rw [h1, h2, h3]




theorem validate_charset_iff (chars : List Nat) :
    detail.validate_charset chars = true ↔
      chars.length = 64 ∧ padByte ∉ chars := by
  simp [detail.validate_charset]

theorem encode_ok (chars : List Nat) (input : List Nat) (hne : input ≠ [])
    (hv : detail.validate_charset chars = true) :
    base64_encode input chars = .ok (encodeChunks chars input) := by
  rw [base64_encode, if_neg hne, hv]
  rfl

/-- C1, amended: round-trip holds for alphabets whose 64 characters are
pairwise distinct. -/
theorem C1_round_trip (chars : List Nat)
    (hv : detail.validate_charset chars = true) (hnd : chars.Nodup)
    (B : List Nat) (hne : B ≠ []) (hB : ∀ b ∈ B, b < 256) :
    ∃ s, base64_encode B chars = .ok s ∧ base64_decode s chars = .ok B := by
  obtain ⟨h64, hpad⟩ := (validate_charset_iff chars).mp hv
  refine ⟨encodeChunks chars B, encode_ok chars B hne hv, ?_⟩
  have hlen : (encodeChunks chars B).length = (B.length + 2) / 3 * 4 :=
    encodeChunks_length chars B
  have hBlen : 0 < B.length := List.length_pos.mpr hne
  have hsne : encodeChunks chars B ≠ [] := by
    intro h
    rw [h] at hlen
    simp at hlen
    omega
  rw [base64_decode, if_neg hsne, hv]
  simp only [Bool.not_true, Bool.false_eq_true, if_false]
  rw [if_neg (by omega)]
  exact roundtrip_chunks chars h64 hnd hpad B hB

theorem C1_round_trip_witness :
    ∃ s, base64_encode [72, 105] base64_chars = .ok s ∧
      base64_decode s base64_chars = .ok [72, 105] :=
  C1_round_trip base64_chars (by decide) (by decide) [72, 105]
    (by decide) (by decide)


/-- C1 as stated fails: the all-duplicate alphabet (64 copies of 'A')
passes 4.1 validation, yet the byte 0x00 encodes to "AA==" and decodes
back to 0xFF. -/
theorem C1_counterexample :
    detail.validate_charset dup_alphabet = true ∧
    base64_encode [0] dup_alphabet = .ok [65, 65, 61, 61] ∧
    base64_decode [65, 65, 61, 61] dup_alphabet = .ok [255] ∧
    (255 : Nat) ≠ 0 :=
  ⟨by decide, by decide, by decide, by decide⟩


/-- C5: for non-empty input and a valid alphabet the encoded text has
length `ceil(n/3)*4 = (n+2)/3*4`, a multiple of 4. -/
theorem C5_encoded_length (input chars : List Nat) (hne : input ≠ [])
    (hv : detail.validate_charset chars = true) :
    ∃ s, base64_encode input chars = .ok s ∧
      s.length = (input.length + 2) / 3 * 4 ∧ s.length % 4 = 0 := by
  refine ⟨encodeChunks chars input, encode_ok chars input hne hv, ?_, ?_⟩
  · exact encodeChunks_length chars input
  · rw [encodeChunks_length chars input]
    omega

theorem C5_encoded_length_witness :
    ∃ s, base64_encode [1, 2, 3, 4] base64_chars = .ok s ∧
      s.length = (([1, 2, 3, 4] : List Nat).length + 2) / 3 * 4 ∧
      s.length % 4 = 0 :=
  C5_encoded_length [1, 2, 3, 4] base64_chars (by decide) (by decide)

/-- C7: once the empty-input and charset checks pass, encoding always
returns a success value. -/
theorem C7_encode_total (input chars : List Nat) (hne : input ≠ [])
    (hv : detail.validate_charset chars = true) :
    ∃ s, base64_encode input chars = .ok s :=
  ⟨encodeChunks chars input, encode_ok chars input hne hv⟩

theorem C7_encode_total_witness :
    ∃ s, base64_encode [255] base64_chars = .ok s :=
  C7_encode_total [255] base64_chars (by decide) (by decide)

/-- C4: the fixed priority of the validation checks of `base64_encode`
and `base64_decode`: empty input first, then alphabet length, then
alphabet padding, and for decode the length check after the alphabet
checks but before any per-symbol check (the last conjunct holds for
every input, in particular inputs full of invalid characters). -/
theorem C4_error_priority (input chars : List Nat) :
    (base64_encode [] chars = .error .empty_data ∧
      base64_decode [] chars = .error .empty_data) ∧
    (input ≠ [] → chars.length ≠ 64 →
      base64_encode input chars = .error .invalid_character_set_length ∧
      base64_decode input chars = .error .invalid_character_set_length) ∧
    (input ≠ [] → chars.length = 64 → padByte ∈ chars →
      base64_encode input chars =
        .error .invalid_character_set_padding_char_used ∧
      base64_decode input chars =
        .error .invalid_character_set_padding_char_used) ∧
    (input ≠ [] → detail.validate_charset chars = true →
      input.length % 4 ≠ 0 →
      base64_decode input chars = .error .invalid_length) := by
  refine ⟨⟨rfl, rfl⟩, ?_, ?_, ?_⟩
  · intro hne hlen
    have hv : detail.validate_charset chars = false := by
      apply Bool.eq_false_iff.mpr
      rw [Ne, validate_charset_iff]
      tauto
    rw [base64_encode, if_neg hne, hv, base64_decode, if_neg hne, hv]
    simp [hne, hlen]
  · intro hne hlen hmem
    have hv : detail.validate_charset chars = false := by
      apply Bool.eq_false_iff.mpr
      rw [Ne, validate_charset_iff]
      tauto
    rw [base64_encode, if_neg hne, hv, base64_decode, if_neg hne, hv]
    simp [hne, hlen]
  · intro hne hv hmod
    rw [base64_decode, if_neg hne, hv]
    simp [hmod]

theorem C4_error_priority_witness :
    base64_encode [0] [61] = .error .invalid_character_set_length ∧
    base64_decode [33] base64_chars = .error .invalid_length :=
  ⟨((C4_error_priority [0] [61]).2.1 (by decide) (by decide)).1,
    (C4_error_priority [33] base64_chars).2.2.2 (by decide) (by decide)
      (by decide)⟩

/-- C10: `detail::validate_charset` accepts exactly length-64 charsets
without '=', distinctness not required: the all-'A' alphabet is accepted
by both `base64_encode` and `base64_decode`. -/
theorem C10_validate_charset (chars : List Nat) :
    (detail.validate_charset chars = true ↔
      chars.length = 64 ∧ padByte ∉ chars) ∧
    detail.validate_charset dup_alphabet = true ∧
    ¬ dup_alphabet.Nodup ∧
    (base64_encode [0] dup_alphabet).isOk = true ∧
    (base64_decode [65, 65, 61, 61] dup_alphabet).isOk = true :=
  ⟨validate_charset_iff chars, by decide, by decide, by decide, by decide⟩

theorem C10_validate_charset_witness :
    detail.validate_charset base64_chars = true :=
  (C10_validate_charset base64_chars).1.mpr (by decide)



/-- C8: text encoded with the URL-safe alphabet never contains '+' (43)
or '/' (47). -/
theorem C8_url_safe_no_plus_slash (input s : List Nat)
    (h : base64_encode input base64_chars_url_safe = .ok s) :
    43 ∉ s ∧ 47 ∉ s := by
  have hne : input ≠ [] := by
    intro he
    rw [he] at h
    simp [base64_encode] at h
  rw [encode_ok base64_chars_url_safe input hne (by decide)] at h
  have hs : s = encodeChunks base64_chars_url_safe input :=
    (Except.ok.inj h).symm
  subst hs
  have hmem := encodeChunks_mem base64_chars_url_safe (by decide) input
  constructor
  · intro hc
    rcases hmem 43 hc with h1 | h1
    · revert h1
      decide
    · revert h1
      decide
  · intro hc
    rcases hmem 47 hc with h1 | h1
    · revert h1
      decide
    · revert h1
      decide

theorem C8_url_safe_witness : 43 ∉ [65, 65, 61, 61] ∧ 47 ∉ [65, 65, 61, 61] :=
  C8_url_safe_no_plus_slash [0] [65, 65, 61, 61] (by decide)

theorem enc_sym_ne_pad (chars : List Nat) (h64 : chars.length = 64)
    (hpad : padByte ∉ chars) (i : Nat) (hi : i < 64) :
    (chars.getD i 0 == padByte) = false := by
  rw [beq_eq_false_iff_ne]
  intro h
  have hm := getD_mem_of_lt chars h64 i hi
  rw [h] at hm
  exact hpad hm

theorem takeWhile_append_stop (p : Nat → Bool) :
    ∀ l1 l2 : List Nat, (∃ x ∈ l1, p x = false) →
      List.takeWhile p (l1 ++ l2) = List.takeWhile p l1 := by
  intro l1
  induction l1 with
  | nil => intro l2 h; simp at h
  | cons a t ih =>
      intro l2 h
      by_cases hp : p a
      · simp only [List.cons_append, List.takeWhile_cons, hp]
        obtain ⟨x, hx, hpx⟩ := h
        rcases List.mem_cons.mp hx with he | ht
        · rw [he] at hpx
          rw [hp] at hpx
          cases hpx
        · rw [ih l2 ⟨x, ht, hpx⟩]
      · have hp2 : p a = false := Bool.eq_false_iff.mpr hp
        simp only [List.cons_append, List.takeWhile_cons, hp2]
        rfl

theorem trailing_append (a b : List Nat)
    (h : ∃ x ∈ b, (x == padByte) = false) :
    trailing_pad_count (a ++ b) = trailing_pad_count b := by
  unfold trailing_pad_count
  rw [List.reverse_append,
    takeWhile_append_stop _ b.reverse a.reverse
      (by obtain ⟨x, hx, hpx⟩ := h; exact ⟨x, List.mem_reverse.mpr hx, hpx⟩)]

theorem encodeChunks_has_non_pad (chars : List Nat) (h64 : chars.length = 64)
    (hpad : padByte ∉ chars) (l : List Nat) (hne : l ≠ []) :
    ∃ x ∈ encodeChunks chars l, (x == padByte) = false := by
  match l with
  | [] => exact absurd rfl hne
  | [b0] =>
      exact ⟨_, by simp [encodeChunks],
        enc_sym_ne_pad chars h64 hpad _ (idx18_lt (b0 <<< 16))⟩
  | [b0, b1] =>
      exact ⟨_, by simp [encodeChunks],
        enc_sym_ne_pad chars h64 hpad _ (idx18_lt (b0 <<< 16 ||| b1 <<< 8))⟩
  | b0 :: b1 :: b2 :: rest =>
      exact ⟨_, by simp [encodeChunks],
        enc_sym_ne_pad chars h64 hpad _
          (idx18_lt (b0 <<< 16 ||| b1 <<< 8 ||| b2))⟩

theorem enc_sym_ne_pad2 (chars : List Nat) (h64 : chars.length = 64)
    (hpad : padByte ∉ chars) (i : Nat) (hi : i < 64) :
    ¬ (chars[i]?.getD 0) = padByte := by
  rw [← List.getD_eq_getElem?_getD]
  intro h
  have hm := getD_mem_of_lt chars h64 i hi
  rw [h] at hm
  exact hpad hm

theorem encodeChunks_trailing (chars : List Nat) (h64 : chars.length = 64)
    (hpad : padByte ∉ chars) :
    ∀ l : List Nat, l ≠ [] →
      trailing_pad_count (encodeChunks chars l) = (3 - l.length % 3) % 3 := by
  intro l
  induction l using encodeChunks.induct chars with
  | case1 => intro h; exact absurd rfl h
  | case2 b0 =>
      intro _
      have hy := enc_sym_ne_pad2 chars h64 hpad _ (idx12_lt (b0 <<< 16))
      simp [encodeChunks, trailing_pad_count, List.takeWhile_cons, hy]
  | case3 b0 b1 =>
      intro _
      have hz := enc_sym_ne_pad2 chars h64 hpad _
        (idx6_lt (b0 <<< 16 ||| b1 <<< 8))
      simp [encodeChunks, trailing_pad_count, List.takeWhile_cons, hz]
  | case4 b0 b1 b2 rest ih =>
      intro _
      by_cases hrest : rest = []
      · subst hrest
        have hw := enc_sym_ne_pad2 chars h64 hpad _
          (idx0_lt (b0 <<< 16 ||| b1 <<< 8 ||| b2))
        simp [encodeChunks, trailing_pad_count, List.takeWhile_cons, hw]
      · rw [show encodeChunks chars (b0 :: b1 :: b2 :: rest) =
          [chars.getD (((b0 <<< 16 ||| b1 <<< 8 ||| b2) &&& 0xFC0000) >>> 18) 0,
           chars.getD (((b0 <<< 16 ||| b1 <<< 8 ||| b2) &&& 0x3F000) >>> 12) 0,
           chars.getD (((b0 <<< 16 ||| b1 <<< 8 ||| b2) &&& 0xFC0) >>> 6) 0,
           chars.getD ((b0 <<< 16 ||| b1 <<< 8 ||| b2) &&& 0x3F) 0] ++
            encodeChunks chars rest from rfl]
        rw [trailing_append _ _
          (encodeChunks_has_non_pad chars h64 hpad rest hrest)]
        rw [ih hrest]
        simp only [List.length_cons]
        omega



/-- C6: the number of trailing '=' symbols of the encoded text is
`(3 - n % 3) % 3` for non-empty input of length n. -/
theorem C6_trailing_pad (input chars : List Nat) (hne : input ≠ [])
    (hv : detail.validate_charset chars = true) :
    ∃ s, base64_encode input chars = .ok s ∧
      trailing_pad_count s = (3 - input.length % 3) % 3 := by
  obtain ⟨h64, hpad⟩ := (validate_charset_iff chars).mp hv
  exact ⟨_, encode_ok chars input hne hv,
    encodeChunks_trailing chars h64 hpad input hne⟩

theorem C6_trailing_pad_witness :
    ∃ s, base64_encode [1] base64_chars = .ok s ∧
      trailing_pad_count s = (3 - [1].length % 3) % 3 :=
  C6_trailing_pad [1] base64_chars (by decide) (by decide)

theorem process_chunk_loop_eq (chars : List Nat) (l : List Nat) :
    detail.process_chunk_loop chars l = encodeChunks chars l := by
  induction l using encodeChunks.induct chars with
  | case1 => rfl
  | case2 b0 => rfl
  | case3 b0 b1 => rfl
  | case4 b0 b1 b2 rest ih =>
      simp only [detail.process_chunk_loop, encodeChunks, ih]

theorem feed_result (chars : List Nat) :
    ∀ (chunks : List (List Nat)) (r : List Nat),
      (detail.stream_encoder.feed ⟨r, chars⟩ chunks).result_ =
        r ++ (chunks.map (encodeChunks chars)).flatten := by
  intro chunks
  induction chunks with
  | nil => intro r; simp [detail.stream_encoder.feed]
  | cons c rest ih =>
      intro r
      have hstep : detail.stream_encoder.feed ⟨r, chars⟩ (c :: rest) =
          detail.stream_encoder.feed
            ⟨r ++ detail.process_chunk_loop chars c, chars⟩ rest := rfl
      rw [hstep, ih, process_chunk_loop_eq]
      simp

theorem flatten_encode (chars : List Nat) :
    ∀ chunks : List (List Nat),
      (∀ c ∈ chunks.dropLast, c.length % 3 = 0) →
      encodeChunks chars chunks.flatten =
        (chunks.map (encodeChunks chars)).flatten := by
  intro chunks
  induction chunks with
  | nil => simp [encodeChunks]
  | cons c rest ih =>
      intro hd
      by_cases hrest : rest = []
      · subst hrest
        simp
      · have hc : c.length % 3 = 0 := by
          apply hd
          rw [List.dropLast_cons_of_ne_nil hrest]
          exact List.mem_cons_self c _
        have hd2 : ∀ x ∈ rest.dropLast, x.length % 3 = 0 := by
          intro x hx
          apply hd
          rw [List.dropLast_cons_of_ne_nil hrest]
          exact List.mem_cons_of_mem c hx
        rw [List.flatten_cons, encodeChunks_append chars c rest.flatten hc,
          ih hd2, List.map_cons, List.flatten_cons]

/-- C2: feeding chunks whose lengths are multiples of 3 (except possibly
the last) to the stream encoder and finalizing produces exactly the text
of a single `base64_encode` of the concatenation. -/
theorem C2_stream_equiv (chars : List Nat)
    (hv : detail.validate_charset chars = true)
    (chunks : List (List Nat)) (hne : chunks.flatten ≠ [])
    (hd : ∀ c ∈ chunks.dropLast, c.length % 3 = 0) :
    base64_encode chunks.flatten chars =
      .ok ((detail.stream_encoder.feed (detail.stream_encoder.new chars)
        chunks).finalize) := by
  rw [encode_ok chars chunks.flatten hne hv]
  rw [show detail.stream_encoder.new chars =
    (⟨[], chars⟩ : detail.stream_encoder) from rfl]
  rw [show ∀ e : detail.stream_encoder, e.finalize = e.result_
    from fun _ => rfl]
  rw [feed_result chars chunks []]
  rw [List.nil_append, flatten_encode chars chunks hd]

theorem C2_stream_equiv_witness :
    base64_encode ([[1, 2, 3], [4, 5]] : List (List Nat)).flatten
        base64_chars =
      .ok ((detail.stream_encoder.feed
        (detail.stream_encoder.new base64_chars)
        [[1, 2, 3], [4, 5]]).finalize) :=
  C2_stream_equiv base64_chars (by decide) [[1, 2, 3], [4, 5]]
    (by decide) (by decide)



theorem decodeChunks_length_add (table : Nat → Nat) :
    ∀ l : List Nat, l.length % 4 = 0 → ∀ out,
      decodeChunks table l = .ok out →
      out.length + group_pad_count l = l.length / 4 * 3 := by
  intro l
  induction l using decodeChunks.induct table with
  | case1 c0 c1 c2 c3 rest v0 v1 v2 v3 hcond =>
      intro hlen out hok
      rw [decodeChunks] at hok
      split at hok
      · cases hok
      · next h => exact absurd hcond h
  | case2 c0 c1 c2 c3 rest v0 v1 v2 v3 hcond ih =>
      intro hlen out hok
      rw [decodeChunks] at hok
      split at hok
      · next h => exact absurd h hcond
      · cases hrest : decodeChunks table rest with
        | error e => rw [hrest] at hok; cases hok
        | ok tl =>
            rw [hrest] at hok
            have hlen2 : rest.length % 4 = 0 := by
              simp only [List.length_cons] at hlen
              omega
            have ihr := ih hlen2 tl hrest
            have hout := (Except.ok.inj hok).symm
            subst hout
            simp only [List.length_append, List.length_cons,
              group_pad_count]
            by_cases h2 : c2 = padByte <;> by_cases h3 : c3 = padByte <;>
              simp [h2, h3] <;> omega
  | case3 t hnomatch =>
      intro hlen out hok
      rcases t with _ | ⟨a, _ | ⟨b, _ | ⟨c, _ | ⟨d, rest⟩⟩⟩⟩
      · cases hok
        simp [group_pad_count]
      · simp at hlen
      · simp at hlen
      · simp at hlen
      · exact (hnomatch a b c d rest rfl).elim



/-- C3, amended: the decoded length is `n/4*3` minus one byte for each
'=' in the 3rd or 4th position of ANY 4-symbol group, not only of the
final group. -/
theorem C3_decode_length (input chars out : List Nat)
    (h : base64_decode input chars = .ok out) :
    out.length = input.length / 4 * 3 - group_pad_count input := by
  by_cases hne : input = []
  · rw [hne, base64_decode] at h
    cases h
  · rw [base64_decode, if_neg hne] at h
    cases hv : detail.validate_charset chars with
    | false =>
        rw [hv] at h
        simp only [Bool.not_false, if_true] at h
        cases h
    | true =>
        rw [hv] at h
        simp only [Bool.not_true, Bool.false_eq_true, if_false] at h
        by_cases hmod : input.length % 4 ≠ 0
        · rw [if_pos hmod] at h
          cases h
        · rw [if_neg hmod] at h
          have hmod2 : input.length % 4 = 0 := by omega
          have := decodeChunks_length_add (decode_table chars) input hmod2
            out h
          omega

theorem C3_decode_length_witness :
    ([65] : List Nat).length =
      [81, 81, 61, 61].length / 4 * 3 - group_pad_count [81, 81, 61, 61] :=
  C3_decode_length [81, 81, 61, 61] base64_chars [65] (by decide)

/-- C3 as stated fails: in "AA==AAAA" the padding sits in an earlier
group and the final group has no trailing '=', so the claim predicts
8/4*3 - 0 = 6 decoded bytes, but the code returns 4. -/
theorem C3_counterexample :
    base64_decode [65, 65, 61, 61, 65, 65, 65, 65] base64_chars =
      .ok [0, 0, 0, 0] ∧
    trailing_pad_count [65, 65, 61, 61, 65, 65, 65, 65] = 0 ∧
    [0, 0, 0, 0].length ≠
      [65, 65, 61, 61, 65, 65, 65, 65].length / 4 * 3 - 0 :=
  ⟨by decide, by decide, by decide⟩

/-- C9: the decode table maps '=' to 0 (never to the 0xFF sentinel), so
'=' in the 1st or 2nd position of a group never trips the
invalid-character test: whenever the 3rd and 4th symbols are padding or
valid, the group decodes without error; and "====" decodes to the single
byte 0x00. -/
theorem C9_pad_never_invalid :
    (∀ chars : List Nat, decode_table chars padByte = 0 ∧
      decode_table chars padByte ≠ 0xFF) ∧
    (∀ chars : List Nat, ∀ c2 c3 : Nat, ∀ rest : List Nat,
      (c2 = padByte ∨ decode_table chars c2 ≠ 0xFF) →
      (c3 = padByte ∨ decode_table chars c3 ≠ 0xFF) →
      ∃ bytes, decodeChunks (decode_table chars)
          (padByte :: padByte :: c2 :: c3 :: rest) =
        (decodeChunks (decode_table chars) rest).map
          (fun tl => bytes ++ tl)) ∧
    base64_decode [61, 61, 61, 61] base64_chars = .ok [0] := by
  refine ⟨fun chars => ⟨decode_table_pad chars, ?_⟩, ?_, by decide⟩
  · rw [decode_table_pad]
    omega
  · intro chars c2 c3 rest hc2 hc3
    rw [decodeChunks, decode_table_pad]
    rw [if_neg (by
      push_neg
      exact ⟨by omega, by omega,
        fun h => (hc2.resolve_left h),
        fun h => (hc3.resolve_left h)⟩)]
    exact ⟨_, rfl⟩

theorem C9_pad_never_invalid_witness :
    decode_table base64_chars padByte = 0 ∧
    ∃ bytes, decodeChunks (decode_table base64_chars)
        [padByte, padByte, padByte, padByte] =
      (decodeChunks (decode_table base64_chars) []).map
        (fun tl => bytes ++ tl) :=
  ⟨(C9_pad_never_invalid.1 base64_chars).1,
    C9_pad_never_invalid.2.1 base64_chars padByte padByte []
      (Or.inl rfl) (Or.inl rfl)⟩

end base64
